import Mathlib

set_option maxRecDepth 4000

/-!
Verification of the evaluation core of the `pebbles` programmer's calculator.

The development shallowly embeds the Rust sources:
  * `src/expr.rs`   — the expression tree `Expr` and the generic wrapping
    evaluator `Expr::eval<T: Int>`;
  * `src/ast.rs`    — an earlier fixed-width (`u32`) expression tree and
    evaluator;
  * `src/main.rs`   — the multi-radix formatter `write_int`/`write_int_continue`;
  * `src/traits.rs` — the `Int` capability trait (wrapping arithmetic,
    `as_unsigned`, …).

Machine integers of a kind `T` (u8/u16/u32/u64/i8/i16/i32/i64) are modelled
as mathematical integers `Int` together with an explicit reduction
`Kind.norm` modulo `2 ^ bits` into the kind's value range; the unsigned
reinterpretation of a value's bit pattern is `Kind.pattern`.  Rust `Result`
values are modelled by `EvalOut` (`ok`/`invalid`), with a third outcome
`panicked` for the places where the Rust code can panic (division or
remainder by zero inside `wrapping_div`/`wrapping_rem`, and the
`.to_u32().unwrap()` on the masked shift amount).
-/

/-- An integer kind: bit width plus signedness.  Mirrors the set of concrete
types the Rust `Int` trait alias (src/traits.rs) is instantiated at by the
calculator (`IntType` in src/main.rs): u8, u16, u32, u64, i8, i16, i32, i64. -/
structure Kind where
  bits : Nat
  signed : Bool
deriving DecidableEq

def kU8 : Kind := ⟨8, false⟩

def kU16 : Kind := ⟨16, false⟩

def kU32 : Kind := ⟨32, false⟩

def kU64 : Kind := ⟨64, false⟩

def kI8 : Kind := ⟨8, true⟩

def kI16 : Kind := ⟨16, true⟩

def kI32 : Kind := ⟨32, true⟩

def kI64 : Kind := ⟨64, true⟩

/-- The kinds selectable by the calculator (`IntType` in src/main.rs). -/
def kinds : List Kind := [kU8, kU16, kU32, kU64, kI8, kI16, kI32, kI64]

/-- The 128-bit signed kind of the literal container (`i128` in
`Expr::Num(i128)`, src/expr.rs). -/
def kI128 : Kind := ⟨128, true⟩

/-- Smallest value representable in the kind. -/
def Kind.minVal (k : Kind) : Int :=
  if k.signed then -((2 : Int) ^ (k.bits - 1)) else 0

/-- Largest value representable in the kind. -/
def Kind.maxVal (k : Kind) : Int :=
  if k.signed then (2 : Int) ^ (k.bits - 1) - 1 else (2 : Int) ^ k.bits - 1

/-- `v` is representable in kind `k`. -/
def Kind.inRange (k : Kind) (v : Int) : Prop :=
  k.minVal ≤ v ∧ v ≤ k.maxVal

instance (k : Kind) (v : Int) : Decidable (k.inRange v) :=
  inferInstanceAs (Decidable (_ ∧ _))

/-- Two's-complement reduction of an arbitrary integer into kind `k`'s value
range: the unique representative of `x` modulo `2 ^ bits` lying in
`[minVal, maxVal]`.  This is how the Rust `wrapping_*` operations are
modelled. -/
def Kind.norm (k : Kind) (x : Int) : Int :=
  if k.signed then (x + (2 : Int) ^ (k.bits - 1)) % (2 : Int) ^ k.bits - (2 : Int) ^ (k.bits - 1)
  else x % (2 : Int) ^ k.bits

/-- The unsigned bit pattern of a kind-`k` value: reinterpretation of the
two's-complement representation as a same-width unsigned number.  Embeds
`as_unsigned` from src/traits.rs. -/
def Kind.pattern (k : Kind) (v : Int) : Nat :=
  (v % (2 : Int) ^ k.bits).toNat

/-- Read an unsigned bit pattern back as a kind-`k` value. -/
def Kind.ofPattern (k : Kind) (u : Nat) : Int :=
  k.norm u

/-- Embedding of `num_traits::FromPrimitive::from_i128` at a primitive target
type: the conversion succeeds exactly when the value is representable. -/
def Kind.fromI128 (k : Kind) (n : Int) : Option Int :=
  if k.minVal ≤ n ∧ n ≤ k.maxVal then some n else none

/-- `i128::wrapping_neg` (used on the literal's wide value in the
`Neg(Num _)` case of `Expr::eval`, src/expr.rs line 68). -/
def i128wrapNeg (n : Int) : Int :=
  kI128.norm (-n)

/-- The expression tree of src/expr.rs.  `num` holds the 128-bit literal
container value (`i128`). -/
inductive Expr where
  | num (n : Int)
  | neg (e : Expr)
  | bitnot (e : Expr)
  | mul (l r : Expr)
  | div (l r : Expr)
  | rem (l r : Expr)
  | add (l r : Expr)
  | sub (l r : Expr)
  | shr (l r : Expr)
  | shl (l r : Expr)
  | and (l r : Expr)
  | xor (l r : Expr)
  | or (l r : Expr)
deriving DecidableEq

/-- Outcome of `Expr::eval<T>` (src/expr.rs): `Ok(v)`, the sole error variant
`Err(EvalErr::Invalid(n))`, or a Rust panic (division/remainder by zero in
`wrapping_div`/`wrapping_rem`, or a failing `.to_u32().unwrap()`). -/
inductive EvalOut where
  | ok (v : Int)
  | invalid (n : Int)
  | panicked
deriving DecidableEq

/-- `?`-propagation on evaluation outcomes. -/
def EvalOut.bind (a : EvalOut) (f : Int → EvalOut) : EvalOut :=
  match a with
  | .ok v => f v
  | .invalid n => .invalid n
  | .panicked => .panicked

/-- Embedding of `.to_u32()` on the (nonnegative) masked shift amount:
`Some` exactly when the value fits in a `u32`. -/
def toU32 (n : Nat) : Option Nat :=
  if n < 2 ^ 32 then some n else none

/-- The shift-amount computation of src/expr.rs lines 84–85:
`(r & (t_bits - T::one())).to_u32()`.  The bitwise AND of two kind-`k`
values operates on their unsigned bit patterns; `t_bits - 1` is the small
nonnegative value `bits - 1`, whose pattern is itself. -/
def Kind.shiftAmt (k : Kind) (y : Int) : Option Nat :=
  toU32 (k.pattern y &&& (k.bits - 1))

/-- Embedding of `Expr::eval<T>` (src/expr.rs lines 56–93).  Recursive,
post-order; left operand first, as in the Rust source. -/
def Expr.eval (k : Kind) : Expr → EvalOut
  | .num n =>
      match k.fromI128 n with
      | some v => .ok v
      | none => .invalid n
  | .neg (.num n) =>
      if k.signed then
        -- Negate the literal's wide value before narrowing (src/expr.rs 62–70).
        let val := i128wrapNeg n
        match k.fromI128 val with
        | some v => .ok v
        | none => .invalid val
      else
        (Expr.eval k (.num n)).bind fun v => .ok (k.norm (-v))
  | .neg e => (Expr.eval k e).bind fun v => .ok (k.norm (-v))
  | .bitnot e =>
      (Expr.eval k e).bind fun v =>
        .ok (k.ofPattern (k.pattern v ^^^ (2 ^ k.bits - 1)))
  | .mul l r =>
      (Expr.eval k l).bind fun x => (Expr.eval k r).bind fun y =>
        .ok (k.norm (x * y))
  | .div l r =>
      (Expr.eval k l).bind fun x => (Expr.eval k r).bind fun y =>
        if y = 0 then .panicked else .ok (k.norm (Int.tdiv x y))
  | .rem l r =>
      (Expr.eval k l).bind fun x => (Expr.eval k r).bind fun y =>
        if y = 0 then .panicked else .ok (k.norm (Int.tmod x y))
  | .add l r =>
      (Expr.eval k l).bind fun x => (Expr.eval k r).bind fun y =>
        .ok (k.norm (x + y))
  | .sub l r =>
      (Expr.eval k l).bind fun x => (Expr.eval k r).bind fun y =>
        .ok (k.norm (x - y))
  | .shr l r =>
      (Expr.eval k l).bind fun x => (Expr.eval k r).bind fun y =>
        match k.shiftAmt y with
        | some amt => .ok (Int.fdiv x ((2 : Int) ^ amt))
        | none => .panicked
  | .shl l r =>
      (Expr.eval k l).bind fun x => (Expr.eval k r).bind fun y =>
        match k.shiftAmt y with
        | some amt => .ok (k.norm (x * (2 : Int) ^ amt))
        | none => .panicked
  | .and l r =>
      (Expr.eval k l).bind fun x => (Expr.eval k r).bind fun y =>
        .ok (k.ofPattern (k.pattern x &&& k.pattern y))
  | .xor l r =>
      (Expr.eval k l).bind fun x => (Expr.eval k r).bind fun y =>
        .ok (k.ofPattern (k.pattern x ^^^ k.pattern y))
  | .or l r =>
      (Expr.eval k l).bind fun x => (Expr.eval k r).bind fun y =>
        .ok (k.ofPattern (k.pattern x ||| k.pattern y))

/-! ## Parser

The lalrpop grammar file (`grammar.lalrpop`) is not part of the sources
under `src/`; only its callers and tests are.  The lexer and parser below
are therefore modelled from the specification. -/

/-- Tokens of the expression grammar. -/
inductive Tok where
  | num (n : Int)
  | plus
  | minus
  | star
  | slash
  | percent
  | shlT
  | shrT
  | amp
  | pipe
  | caret
  | tilde
  | bang
  | lparen
  | rparen
deriving DecidableEq

/-- Largest value of the 128-bit literal container (`i128::MAX`). -/
def i128Max : Int := 2 ^ 127 - 1

/-- Value of a digit character in the given base, if it is one. -/
def digitVal (base : Nat) (c : Char) : Option Nat :=
  let d :=
    if '0' ≤ c ∧ c ≤ '9' then some (c.toNat - '0'.toNat)
    else if 'a' ≤ c ∧ c ≤ 'f' then some (c.toNat - 'a'.toNat + 10)
    else if 'A' ≤ c ∧ c ≤ 'F' then some (c.toNat - 'A'.toNat + 10)
    else none
  match d with
  | some v => if v < base then some v else none
  | none => none

/-- Take the longest prefix of base-`base` digit characters, returning their
values and the remaining characters. -/
def takeDigits (base : Nat) : List Char → List Nat × List Char
  | [] => ([], [])
  | c :: rest =>
      match digitVal base c with
      | some d =>
          let p := takeDigits base rest
          (d :: p.1, p.2)
      | none => ([], c :: rest)

/-- Accumulate digit values into a number, most significant first. -/
def digitsToNat (base : Nat) (ds : List Nat) : Nat :=
  ds.foldl (fun a d => a * base + d) 0

/-- Modelled from the spec: the lexer of the missing `grammar.lalrpop`.
Skips whitespace; recognizes decimal, `0x`/`0X` hex and `0o`/`0O` octal
literals (rejecting a literal that does not fit the 128-bit literal
container), the eleven operators, and parentheses; any other character is
an invalid token.  `fuel` bounds the recursion; `fuel = length + 1` always
suffices since every step consumes at least one character. -/
def lexGo (fuel : Nat) (cs : List Char) : Option (List Tok) :=
  match fuel with
  | 0 => none
  | f + 1 =>
      match cs with
      | [] => some []
      | c :: cs =>
          if c = '0' ∧ (cs.head? = some 'x' ∨ cs.head? = some 'X') then
            let p := takeDigits 16 cs.tail
            if p.1 = [] then none
            else
              let v := digitsToNat 16 p.1
              if (v : Int) ≤ i128Max then
                (lexGo f p.2).map (fun ts => Tok.num v :: ts)
              else none
          else if c = '0' ∧ (cs.head? = some 'o' ∨ cs.head? = some 'O') then
            let p := takeDigits 8 cs.tail
            if p.1 = [] then none
            else
              let v := digitsToNat 8 p.1
              if (v : Int) ≤ i128Max then
                (lexGo f p.2).map (fun ts => Tok.num v :: ts)
              else none
          else
            match digitVal 10 c with
            | some d =>
                let p := takeDigits 10 cs
                let v := digitsToNat 10 (d :: p.1)
                if (v : Int) ≤ i128Max then
                  (lexGo f p.2).map (fun ts => Tok.num v :: ts)
                else none
            | none =>
                if c.isWhitespace then lexGo f cs
                else
                  match c with
                  | '<' =>
                      match cs with
                      | '<' :: cs' => (lexGo f cs').map (fun ts => Tok.shlT :: ts)
                      | _ => none
                  | '>' =>
                      match cs with
                      | '>' :: cs' => (lexGo f cs').map (fun ts => Tok.shrT :: ts)
                      | _ => none
                  | '+' => (lexGo f cs).map (fun ts => Tok.plus :: ts)
                  | '-' => (lexGo f cs).map (fun ts => Tok.minus :: ts)
                  | '*' => (lexGo f cs).map (fun ts => Tok.star :: ts)
                  | '/' => (lexGo f cs).map (fun ts => Tok.slash :: ts)
                  | '%' => (lexGo f cs).map (fun ts => Tok.percent :: ts)
                  | '&' => (lexGo f cs).map (fun ts => Tok.amp :: ts)
                  | '|' => (lexGo f cs).map (fun ts => Tok.pipe :: ts)
                  | '^' => (lexGo f cs).map (fun ts => Tok.caret :: ts)
                  | '~' => (lexGo f cs).map (fun ts => Tok.tilde :: ts)
                  | '!' => (lexGo f cs).map (fun ts => Tok.bang :: ts)
                  | '(' => (lexGo f cs).map (fun ts => Tok.lparen :: ts)
                  | ')' => (lexGo f cs).map (fun ts => Tok.rparen :: ts)
                  | _ => none

/-- Lex a character list. -/
def lex (cs : List Char) : Option (List Tok) :=
  lexGo (cs.length + 1) cs

/-- Binary operator table by precedence level, tightest first: level 2 is
`* / %`, 3 is binary `+ -`, 4 is `<< >>`, 5 is `&`, 6 is `^`, 7 is `|`
(levels 0 and 1 are primaries and unary prefixes).  Modelled from the
spec's precedence table as pinned down by the repository's own tests
(`10 + 2 * 5 == 20`, `1 | 6 ^ 7 & 12 == 3`): multiplicative operators bind
tighter than additive ones, and `&` tighter than `^` tighter than `|`. -/
def levelOp : Nat → Tok → Option (Expr → Expr → Expr)
  | 2, .star => some .mul
  | 2, .slash => some .div
  | 2, .percent => some .rem
  | 3, .plus => some .add
  | 3, .minus => some .sub
  | 4, .shlT => some .shl
  | 4, .shrT => some .shr
  | 5, .amp => some .and
  | 6, .caret => some .xor
  | 7, .pipe => some .or
  | _, _ => none

mutual

/-- Modelled from the spec: recursive-descent parser for the missing
`grammar.lalrpop`.  `parseLevel lvl` parses one expression at precedence
level `lvl`: level 0 is a literal or parenthesized expression, level 1 the
unary prefixes `-`, `~`, `!` (right-associative), and levels 2–7 the
left-associative binary tiers of `levelOp`. -/
def parseLevel (fuel : Nat) (lvl : Nat) (ts : List Tok) : Option (Expr × List Tok) :=
  match fuel with
  | 0 => none
  | f + 1 =>
      match lvl with
      | 0 =>
          match ts with
          | .num n :: rest => some (.num n, rest)
          | .lparen :: rest =>
              match parseLevel f 7 rest with
              | some (e, .rparen :: rest') => some (e, rest')
              | _ => none
          | _ => none
      | 1 =>
          match ts with
          | .minus :: rest => (parseLevel f 1 rest).map (fun p => (.neg p.1, p.2))
          | .tilde :: rest => (parseLevel f 1 rest).map (fun p => (.bitnot p.1, p.2))
          | .bang :: rest => (parseLevel f 1 rest).map (fun p => (.bitnot p.1, p.2))
          | _ => parseLevel f 0 ts
      | l + 2 =>
          match parseLevel f (l + 1) ts with
          | some (e, rest) => parseLevelGo f (l + 2) e rest
          | none => none

/-- Left-associative continuation: fold further `op`-operands at level
`lvl` onto `acc`. -/
def parseLevelGo (fuel : Nat) (lvl : Nat) (acc : Expr) (ts : List Tok) :
    Option (Expr × List Tok) :=
  match fuel with
  | 0 => none
  | f + 1 =>
      match ts with
      | [] => some (acc, [])
      | t :: rest =>
          match levelOp lvl t with
          | some op =>
              match parseLevel f (lvl - 1) rest with
              | some (e, rest') => parseLevelGo f lvl (op acc e) rest'
              | none => none
          | none => some (acc, t :: rest)

end

/-- Parse a token list into an expression; fails if tokens remain. -/
def parseToks (ts : List Tok) : Option Expr :=
  match parseLevel (16 * (ts.length + 1)) 7 ts with
  | some (e, []) => some e
  | _ => none

/-- Modelled from the spec: `parse(text) -> Result<Expr, ParseError>`, with
every failure collapsed to `none`. -/
def parse (s : String) : Option Expr :=
  (lex s.data).bind parseToks

/-- Parse then evaluate, as the calculator's `exec` does. -/
def evalStr (k : Kind) (s : String) : Option EvalOut :=
  (parse s).map (Expr.eval k)

/-- No division or remainder inside the expression has a divisor that
evaluates (in kind `k`) to zero: the precondition of claim C5. -/
def divSafe (k : Kind) : Expr → Bool
  | .num _ => true
  | .neg e => divSafe k e
  | .bitnot e => divSafe k e
  | .mul l r => divSafe k l && divSafe k r
  | .div l r => divSafe k l && divSafe k r && !(Expr.eval k r == .ok 0)
  | .rem l r => divSafe k l && divSafe k r && !(Expr.eval k r == .ok 0)
  | .add l r => divSafe k l && divSafe k r
  | .sub l r => divSafe k l && divSafe k r
  | .shr l r => divSafe k l && divSafe k r
  | .shl l r => divSafe k l && divSafe k r
  | .and l r => divSafe k l && divSafe k r
  | .xor l r => divSafe k l && divSafe k r
  | .or l r => divSafe k l && divSafe k r

/-- The character of a decimal digit value. -/
def digitChar (d : Nat) : Char :=
  Char.ofNat ('0'.toNat + d)

/-- Decimal rendering of a natural number, most significant digit first.
`fuel > n` always suffices. -/
def decRenderGo : Nat → Nat → List Char
  | 0, _ => []
  | f + 1, n =>
      if n < 10 then [digitChar n]
      else decRenderGo f (n / 10) ++ [digitChar (n % 10)]

/-- Decimal string of a natural number. -/
def decString (n : Nat) : String :=
  String.mk (decRenderGo (n + 1) n)

/-! ## Formatter (src/main.rs) -/

/-- The alternate output radix (`Base` in src/main.rs). -/
inductive Base where
  | hex
  | oct
deriving DecidableEq

/-- `Base::bits` (src/main.rs): bits per digit chunk. -/
def Base.bits : Base → Nat
  | .hex => 4
  | .oct => 3

/-- `div_round_up` (src/main.rs). -/
def divRoundUp (dividend divisor : Nat) : Nat :=
  (dividend + divisor - 1) / divisor

/-- The digit-extraction loop of `write_int_continue` (src/main.rs lines
66–71): repeatedly push `val & digit_mask` and shift `val` right by the
chunk width, while `val > 0`.  Digits are produced least significant
first.  `fuel` bounds the iteration count; any `fuel` with
`val < 2 ^ (cbits * fuel)` suffices. -/
def chunkGo (cbits : Nat) : Nat → Nat → List Nat
  | 0, _ => []
  | f + 1, val =>
      if val = 0 then []
      else (val &&& (2 ^ cbits - 1)) :: chunkGo cbits f (val >>> cbits)

/-- `ceil(bit_width / chunk_bits)` chunks (src/main.rs line 75). -/
def numChunks (k : Kind) (b : Base) : Nat :=
  divRoundUp k.bits b.bits

/-- Bits in the most significant chunk (src/main.rs lines 81–85). -/
def topBits (k : Kind) (b : Base) : Nat :=
  if k.bits % b.bits = 0 then b.bits else k.bits % b.bits

/-- The chunk list of `write_int_continue`, least significant first, padded
with zero chunks up to the full width (src/main.rs lines 73–78). -/
def digitsLE (k : Kind) (b : Base) (u : Nat) : List Nat :=
  let ds := chunkGo b.bits k.bits u
  ds ++ List.replicate (numChunks k b - ds.length) 0

/-- The alternate-radix line's chunks, most significant first: `none` is a
blank (an all-zero leading chunk rendered as padding, src/main.rs lines
88–108); the final chunk is always printed, even when zero. -/
def altMark (seen : Bool) : List Nat → List (Option Nat)
  | [] => []
  | d :: rest =>
      (if (seen || !(d == 0)) || rest.isEmpty then some d else none) ::
        altMark (seen || !(d == 0)) rest

/-- Chunks of the alternate-radix line of `format(v, b)` at kind `k`
(`none` = blank padding). -/
def altChunks (k : Kind) (b : Base) (v : Int) : List (Option Nat) :=
  altMark false (digitsLE k b (k.pattern v)).reverse

/-- Chunks of the binary line of `format(v, b)` at kind `k` (src/main.rs
lines 111–119): same chunk boundaries, every chunk printed. -/
def binChunks (k : Kind) (b : Base) (v : Int) : List Nat :=
  (digitsLE k b (k.pattern v)).reverse

/-- Reassemble printed chunks by shifting each into place (the decoding of
the repository's formatter tests, src/main.rs `check_hex`/`check_oct`). -/
def decodeChunks (cbits : Nat) (l : List Nat) : Nat :=
  l.foldl (fun a d => a * 2 ^ cbits + d) 0

/-- Reassemble the alternate-radix line: blanks contribute no digit. -/
def decodeAlt (cbits : Nat) (l : List (Option Nat)) : Nat :=
  l.foldl (fun a od => match od with | some d => a * 2 ^ cbits + d | none => a) 0

/-! ## The fixed-width u32 evaluator (src/ast.rs) -/

/-- The expression tree of src/ast.rs: identical shape to `Expr`, but the
literal is a `u32`. -/
inductive AExpr where
  | num (n : Nat)
  | neg (e : AExpr)
  | bitnot (e : AExpr)
  | mul (l r : AExpr)
  | div (l r : AExpr)
  | rem (l r : AExpr)
  | add (l r : AExpr)
  | sub (l r : AExpr)
  | shr (l r : AExpr)
  | shl (l r : AExpr)
  | and (l r : AExpr)
  | xor (l r : AExpr)
  | or (l r : AExpr)
deriving DecidableEq

/-- Embedding of `Expr::eval` from src/ast.rs (lines 41–68): total `u32`
arithmetic modulo `2 ^ 32`, except that `wrapping_div`/`wrapping_rem`
panic (`none`) on a zero divisor.  `wrapping_shr`/`wrapping_shl` on `u32`
mask the shift amount modulo 32. -/
def AExpr.eval : AExpr → Option Nat
  | .num n => some n
  | .neg e => (AExpr.eval e).map fun v => (2 ^ 32 - v) % 2 ^ 32
  | .bitnot e => (AExpr.eval e).map fun v => v ^^^ (2 ^ 32 - 1)
  | .mul l r =>
      (AExpr.eval l).bind fun x => (AExpr.eval r).map fun y => x * y % 2 ^ 32
  | .div l r =>
      (AExpr.eval l).bind fun x => (AExpr.eval r).bind fun y =>
        if y = 0 then none else some (x / y)
  | .rem l r =>
      (AExpr.eval l).bind fun x => (AExpr.eval r).bind fun y =>
        if y = 0 then none else some (x % y)
  | .add l r =>
      (AExpr.eval l).bind fun x => (AExpr.eval r).map fun y => (x + y) % 2 ^ 32
  | .sub l r =>
      (AExpr.eval l).bind fun x => (AExpr.eval r).map fun y =>
        (2 ^ 32 + x - y) % 2 ^ 32
  | .shr l r =>
      (AExpr.eval l).bind fun x => (AExpr.eval r).map fun y => x >>> (y % 32)
  | .shl l r =>
      (AExpr.eval l).bind fun x => (AExpr.eval r).map fun y =>
        (x <<< (y % 32)) % 2 ^ 32
  | .and l r =>
      (AExpr.eval l).bind fun x => (AExpr.eval r).map fun y => x &&& y
  | .xor l r =>
      (AExpr.eval l).bind fun x => (AExpr.eval r).map fun y => x ^^^ y
  | .or l r =>
      (AExpr.eval l).bind fun x => (AExpr.eval r).map fun y => x ||| y

/-- All literals fit in a `u32` (automatic for the Rust `u32` field; made
explicit here because the embedding stores a `Nat`). -/
def AExpr.litsFit : AExpr → Bool
  | .num n => n < 2 ^ 32
  | .neg e => AExpr.litsFit e
  | .bitnot e => AExpr.litsFit e
  | .mul l r => AExpr.litsFit l && AExpr.litsFit r
  | .div l r => AExpr.litsFit l && AExpr.litsFit r
  | .rem l r => AExpr.litsFit l && AExpr.litsFit r
  | .add l r => AExpr.litsFit l && AExpr.litsFit r
  | .sub l r => AExpr.litsFit l && AExpr.litsFit r
  | .shr l r => AExpr.litsFit l && AExpr.litsFit r
  | .shl l r => AExpr.litsFit l && AExpr.litsFit r
  | .and l r => AExpr.litsFit l && AExpr.litsFit r
  | .xor l r => AExpr.litsFit l && AExpr.litsFit r
  | .or l r => AExpr.litsFit l && AExpr.litsFit r

/-- The structurally identical `Expr` of an `AExpr`. -/
def AExpr.toExpr : AExpr → Expr
  | .num n => .num n
  | .neg e => .neg (AExpr.toExpr e)
  | .bitnot e => .bitnot (AExpr.toExpr e)
  | .mul l r => .mul (AExpr.toExpr l) (AExpr.toExpr r)
  | .div l r => .div (AExpr.toExpr l) (AExpr.toExpr r)
  | .rem l r => .rem (AExpr.toExpr l) (AExpr.toExpr r)
  | .add l r => .add (AExpr.toExpr l) (AExpr.toExpr r)
  | .sub l r => .sub (AExpr.toExpr l) (AExpr.toExpr r)
  | .shr l r => .shr (AExpr.toExpr l) (AExpr.toExpr r)
  | .shl l r => .shl (AExpr.toExpr l) (AExpr.toExpr r)
  | .and l r => .and (AExpr.toExpr l) (AExpr.toExpr r)
  | .xor l r => .xor (AExpr.toExpr l) (AExpr.toExpr r)
  | .or l r => .or (AExpr.toExpr l) (AExpr.toExpr r)

/-! ## Claims C1 and C2: operator precedence -/

/-- C1: the claim's concrete identity fails on the code.  `1 | 6 ^ 7 & 12`
evaluates to `3` (as the repository's own test asserts), while the claim's
parenthesization `1 | ((6 ^ 7) & 12)` evaluates to `1`. -/
theorem C1_counterexample :
    evalStr kU32 "1 | 6 ^ 7 & 12" = some (.ok 3) ∧
    evalStr kU32 "1 | ((6 ^ 7) & 12)" = some (.ok 1) ∧
    evalStr kU32 "1 | 6 ^ 7 & 12" ≠ evalStr kU32 "1 | ((6 ^ 7) & 12)" := by
  decide

/-- C1 (amended): bitwise AND binds tighter than XOR, which binds tighter
than OR, so for every Kind `evaluate(parse("1 | 6 ^ 7 & 12"))` equals
`evaluate(parse("1 | (6 ^ (7 & 12))"))`, both `3`. -/
theorem C1_amended_precedence (k : Kind) (hk : k ∈ kinds) :
    evalStr k "1 | 6 ^ 7 & 12" = evalStr k "1 | (6 ^ (7 & 12))" ∧
    evalStr k "1 | 6 ^ 7 & 12" = some (.ok 3) := by
  fin_cases hk <;> exact ⟨by decide, by decide⟩

theorem C1_amended_witness :
    evalStr kU32 "1 | 6 ^ 7 & 12" = evalStr kU32 "1 | (6 ^ (7 & 12))" ∧
    evalStr kU32 "1 | 6 ^ 7 & 12" = some (.ok 3) :=
  C1_amended_precedence kU32 (by decide)

/-- C2: the claim's conclusion fails on the code: `10 + 2 * 5` evaluates to
`20` (as the repository's own test asserts), not `60`, because the
implemented grammar gives `*`, `/`, `%` a tighter binding than binary
`+`/`-`. -/
theorem C2_counterexample :
    evalStr kU32 "10 + 2 * 5" = some (.ok 20) ∧
    evalStr kU32 "10 + 2 * 5" ≠ some (.ok 60) := by
  decide

/-- C2 (amended): in the implemented grammar `*`, `/`, `%` bind tighter
than binary `+`/`-` (which form their own looser tier, ties broken
left-to-right), so `10 + 2 * 5` groups as `10 + (2 * 5)` and evaluates to
`20` for every Kind. -/
theorem C2_amended_additive_tier (k : Kind) (hk : k ∈ kinds) :
    parse "10 + 2 * 5" = some (.add (.num 10) (.mul (.num 2) (.num 5))) ∧
    evalStr k "10 + 2 * 5" = some (.ok 20) := by
  fin_cases hk <;> exact ⟨by decide, by decide⟩

theorem C2_amended_witness :
    parse "10 + 2 * 5" = some (.add (.num 10) (.mul (.num 2) (.num 5))) ∧
    evalStr kU32 "10 + 2 * 5" = some (.ok 20) :=
  C2_amended_additive_tier kU32 (by decide)

/-! ## Arithmetic helper lemmas -/

theorem bits_le_two_pow_pred {b : Nat} (hb : 1 ≤ b) : b ≤ 2 ^ (b - 1) := by
  cases b with
  | zero => omega
  | succ n => simpa using Nat.lt_two_pow n

theorem Kind.two_pow_eq (k : Kind) (h : 0 < k.bits) :
    (2 : Int) ^ k.bits = 2 * (2 : Int) ^ (k.bits - 1) := by
  conv_lhs => rw [show k.bits = (k.bits - 1) + 1 by omega]
  rw [pow_succ]
  ring

/-- `norm` preserves the residue modulo `2 ^ bits`. -/
theorem Kind.norm_emod (k : Kind) (h : 0 < k.bits) (x : Int) :
    k.norm x % (2 : Int) ^ k.bits = x % (2 : Int) ^ k.bits := by
  unfold Kind.norm
  rcases k.signed with _ | _
  · simp [Int.emod_emod_of_dvd]
  · simp only [if_true, Bool.true_eq]
    rw [Int.sub_emod, Int.emod_emod_of_dvd _ dvd_rfl, ← Int.sub_emod,
      add_sub_cancel_right]

/-- `norm` lands in the kind's value range. -/
theorem Kind.norm_inRange (k : Kind) (h : 0 < k.bits) (x : Int) :
    k.inRange (k.norm x) := by
  have hM : (0 : Int) < (2 : Int) ^ k.bits := by positivity
  have h2 : (2 : Int) ^ k.bits = 2 * (2 : Int) ^ (k.bits - 1) := k.two_pow_eq h
  unfold Kind.norm Kind.inRange Kind.minVal Kind.maxVal
  rcases k.signed with _ | _
  · simp only [if_false, Bool.false_eq_true]
    constructor
    · exact Int.emod_nonneg x (by omega)
    · have := Int.emod_lt_of_pos x hM
      omega
  · simp only [if_true, Bool.true_eq]
    have h1 : 0 ≤ (x + (2 : Int) ^ (k.bits - 1)) % (2 : Int) ^ k.bits :=
      Int.emod_nonneg _ (by omega)
    have h2' := Int.emod_lt_of_pos (x + (2 : Int) ^ (k.bits - 1)) hM
    omega

/-- `norm` is the identity on representable values. -/
theorem Kind.norm_eq_of_inRange (k : Kind) (h : 0 < k.bits) {x : Int}
    (hx : k.inRange x) : k.norm x = x := by
  have h2 : (2 : Int) ^ k.bits = 2 * (2 : Int) ^ (k.bits - 1) := k.two_pow_eq h
  obtain ⟨h1, h2'⟩ := hx
  unfold Kind.minVal at h1
  unfold Kind.maxVal at h2'
  unfold Kind.norm
  by_cases hs : k.signed = true
  · simp only [hs, if_true] at *
    rw [Int.emod_eq_of_lt (by omega) (by omega)]
    omega
  · simp only [hs, if_false] at *
    exact Int.emod_eq_of_lt h1 (by omega)

/-- The unsigned pattern is a same-width number. -/
theorem Kind.pattern_lt (k : Kind) (v : Int) : k.pattern v < 2 ^ k.bits := by
  have hM : (0 : Int) < (2 : Int) ^ k.bits := by positivity
  have h1 : 0 ≤ v % (2 : Int) ^ k.bits := Int.emod_nonneg v (by omega)
  have h2 := Int.emod_lt_of_pos v hM
  have hcast : ((2 ^ k.bits : Nat) : Int) = (2 : Int) ^ k.bits := by push_cast; ring
  unfold Kind.pattern
  omega

/-- The pattern of a small nonnegative value is itself. -/
theorem Kind.pattern_ofNat (k : Kind) (m : Nat) (hm : m < 2 ^ k.bits) :
    k.pattern (m : Int) = m := by
  have hcast : ((2 ^ k.bits : Nat) : Int) = (2 : Int) ^ k.bits := by push_cast; ring
  unfold Kind.pattern
  rw [Int.emod_eq_of_lt (by omega) (by omega)]
  omega

/-- Small natural numbers up to `bits - 1` are representable in the kind. -/
theorem Kind.inRange_small (k : Kind) (h : 0 < k.bits) (m : Nat)
    (hm : m ≤ k.bits - 1) : k.inRange (m : Int) := by
  have hb := bits_le_two_pow_pred h
  have hb2 : k.bits ≤ 2 ^ k.bits := (bits_le_two_pow_pred h).trans
    (Nat.pow_le_pow_right (by omega) (by omega))
  have hc1 : ((2 ^ (k.bits - 1) : Nat) : Int) = (2 : Int) ^ (k.bits - 1) := by
    push_cast; ring
  have hc2 : ((2 ^ k.bits : Nat) : Int) = (2 : Int) ^ k.bits := by push_cast; ring
  unfold Kind.inRange Kind.minVal Kind.maxVal
  by_cases hs : k.signed = true <;> simp only [hs, if_true, if_false] <;> omega

/-- The masked shift amount: the `.to_u32()` conversion always succeeds and
the amount is below the bit width. -/
theorem Kind.shiftAmt_spec (k : Kind) (y : Int) (h : 0 < k.bits)
    (h32 : k.bits ≤ 2 ^ 32) :
    k.shiftAmt y = some (k.pattern y &&& (k.bits - 1)) ∧
    k.pattern y &&& (k.bits - 1) < k.bits := by
  have hle : k.pattern y &&& (k.bits - 1) ≤ k.bits - 1 := Nat.and_le_right
  refine ⟨?_, by omega⟩
  unfold Kind.shiftAmt toU32
  rw [if_pos (by omega)]

/-- Unfolding: negating anything but a literal evaluates the subtree and
applies wrapping negation. -/
theorem Expr.eval_neg_not_num (k : Kind) (e : Expr) (he : ∀ m : Int, e ≠ .num m) :
    Expr.eval k (.neg e) = (Expr.eval k e).bind fun v => .ok (k.norm (-v)) := by
  cases e <;> first | rfl | exact absurd rfl (he _)

/-- Unfolding: at an unsigned kind, negation always takes the generic
wrapping path, literal subtree or not. -/
theorem Expr.eval_neg_unsigned (k : Kind) (hs : k.signed = false) (e : Expr) :
    Expr.eval k (.neg e) = (Expr.eval k e).bind fun v => .ok (k.norm (-v)) := by
  cases e <;> first | rfl | simp only [Expr.eval, hs, Bool.false_eq_true, if_false]

/-! ## Claim C3: negation semantics -/

/-- C3: for every signed Kind, `Negate(Literal(n))` negates the 128-bit wide
literal value before narrowing (so `-128` evaluates to `-128` at `i8`, and
`-128 - 1` wraps to `127`); for a non-literal subtree or an unsigned Kind,
negation is wrapping negation of the narrowed value, and negating the
kind's minimum yields the minimum again. -/
theorem C3_negate_semantics :
    (∀ k : Kind, k.signed = true → ∀ n : Int, k.inRange (i128wrapNeg n) →
        Expr.eval k (.neg (.num n)) = .ok (i128wrapNeg n)) ∧
    Expr.eval kI8 (.neg (.num 128)) = .ok (-128) ∧
    Expr.eval kI8 (.sub (.neg (.num 128)) (.num 1)) = .ok 127 ∧
    (∀ (k : Kind) (e : Expr) (v : Int),
        (k.signed = false ∨ ∀ m : Int, e ≠ .num m) →
        Expr.eval k e = .ok v →
        Expr.eval k (.neg e) = .ok (k.norm (-v))) ∧
    (∀ k ∈ kinds, k.norm (-k.minVal) = k.minVal) := by
  refine ⟨?_, by decide, by decide, ?_, ?_⟩
  · intro k hs n hr
    simp only [Expr.eval, hs, if_true, Kind.fromI128]
    rw [if_pos ⟨hr.1, hr.2⟩]
  · intro k e v hcase hv
    have hrw : Expr.eval k (.neg e) = (Expr.eval k e).bind fun w => .ok (k.norm (-w)) := by
      rcases hcase with hs | hnn
      · exact Expr.eval_neg_unsigned k hs e
      · exact Expr.eval_neg_not_num k e hnn
    rw [hrw, hv]
    rfl
  · intro k hk
    fin_cases hk <;> decide

theorem C3_witness :
    Expr.eval kI8 (.neg (.num 100)) = .ok (i128wrapNeg 100) ∧
    Expr.eval kU8 (.neg (.bitnot (.num 0))) = .ok (kU8.norm (-255)) ∧
    kI8.norm (-kI8.minVal) = kI8.minVal := by
  refine ⟨C3_negate_semantics.1 kI8 (by decide) 100 (by decide), ?_, ?_⟩
  · exact C3_negate_semantics.2.2.2.1 kU8 (.bitnot (.num 0)) 255
      (Or.inl (by decide)) (by decide)
  · exact C3_negate_semantics.2.2.2.2 kI8 (by decide)

/-- Unfolding of `Expr.eval` at a shift-left node. -/
theorem Expr.eval_shl (k : Kind) (l r : Expr) :
    Expr.eval k (.shl l r) =
      (Expr.eval k l).bind fun x => (Expr.eval k r).bind fun y =>
        match k.shiftAmt y with
        | some amt => .ok (k.norm (x * (2 : Int) ^ amt))
        | none => .panicked := rfl

/-- Unfolding of `Expr.eval` at a shift-right node. -/
theorem Expr.eval_shr (k : Kind) (l r : Expr) :
    Expr.eval k (.shr l r) =
      (Expr.eval k l).bind fun x => (Expr.eval k r).bind fun y =>
        match k.shiftAmt y with
        | some amt => .ok (Int.fdiv x ((2 : Int) ^ amt))
        | none => .panicked := rfl

/-! ## Claim C4: shift amounts are masked to the bit width -/

/-- C4: the shift amount is evaluated in Kind and masked with bitwise AND
against `bits - 1` before shifting: replacing the amount operand by the
literal holding its masked value leaves every shift node's result
unchanged; concretely, at both 32-bit kinds `1 << 35` equals `1 << 3`
equals `8`. -/
theorem C4_shift_mask :
    (∀ (k : Kind) (l r : Expr) (y : Int), 0 < k.bits → k.bits ≤ 2 ^ 32 →
        Expr.eval k r = .ok y →
        Expr.eval k (.shl l r) =
          Expr.eval k (.shl l (.num ((k.pattern y &&& (k.bits - 1) : Nat) : Int))) ∧
        Expr.eval k (.shr l r) =
          Expr.eval k (.shr l (.num ((k.pattern y &&& (k.bits - 1) : Nat) : Int)))) ∧
    evalStr kU32 "1 << 35" = some (.ok 8) ∧
    evalStr kU32 "1 << 3" = some (.ok 8) ∧
    evalStr kI32 "1 << 35" = some (.ok 8) ∧
    evalStr kI32 "1 << 3" = some (.ok 8) := by
  refine ⟨?_, by decide, by decide, by decide, by decide⟩
  intro k l r y hb h32 hv
  have hmle : k.pattern y &&& (k.bits - 1) ≤ k.bits - 1 := Nat.and_le_right
  have hnum : Expr.eval k (.num ((k.pattern y &&& (k.bits - 1) : Nat) : Int)) =
      .ok ((k.pattern y &&& (k.bits - 1) : Nat) : Int) := by
    have hr := Kind.inRange_small k hb _ hmle
    simp only [Expr.eval, Kind.fromI128]
    rw [if_pos ⟨hr.1, hr.2⟩]
  have hpat : k.pattern ((k.pattern y &&& (k.bits - 1) : Nat) : Int) =
      k.pattern y &&& (k.bits - 1) := by
    refine Kind.pattern_ofNat k _ ?_
    have hbb : k.bits ≤ 2 ^ k.bits :=
      (bits_le_two_pow_pred hb).trans (Nat.pow_le_pow_right (by omega) (by omega))
    omega
  have hamt : k.shiftAmt ((k.pattern y &&& (k.bits - 1) : Nat) : Int) = k.shiftAmt y := by
    unfold Kind.shiftAmt
    rw [hpat, Nat.and_assoc, Nat.and_self]
  constructor
  · rw [Expr.eval_shl, Expr.eval_shl, hv, hnum]
    refine congrArg _ (funext fun x => ?_)
    simp only [EvalOut.bind]
    rw [hamt]
  · rw [Expr.eval_shr, Expr.eval_shr, hv, hnum]
    refine congrArg _ (funext fun x => ?_)
    simp only [EvalOut.bind]
    rw [hamt]

theorem C4_witness :
    Expr.eval kU32 (.shl (.num 1) (.num 35)) =
      Expr.eval kU32 (.shl (.num 1) (.num ((kU32.pattern 35 &&& (kU32.bits - 1) : Nat) : Int))) ∧
    Expr.eval kU32 (.shr (.num 1) (.num 35)) =
      Expr.eval kU32 (.shr (.num 1) (.num ((kU32.pattern 35 &&& (kU32.bits - 1) : Nat) : Int))) :=
  C4_shift_mask.1 kU32 (.num 1) (.num 35) 35 (by decide) (by decide) (by decide)

/-! ## Claim C9: the masked shift amount is always a valid u32 -/

/-- C9: the masked shift amount always lies in `[0, bits - 1]`, so the
internal `.to_u32().unwrap()` never fails, for every selectable Kind; and a
negative shift amount at a signed kind is well-defined:
`1 << -1` at `i32` is a shift by 31, giving `i32::MIN`. -/
theorem C9_shift_amount_safe :
    (∀ k ∈ kinds, ∀ y : Int, ∃ m : Nat, k.shiftAmt y = some m ∧ m < k.bits) ∧
    Expr.eval kI32 (.shl (.num 1) (.neg (.num 1))) = .ok (-2147483648) := by
  refine ⟨?_, by decide⟩
  intro k hk y
  have hb : 0 < k.bits ∧ k.bits ≤ 2 ^ 32 := by
    fin_cases hk <;> exact ⟨by decide, by decide⟩
  obtain ⟨h1, h2⟩ := Kind.shiftAmt_spec k y hb.1 hb.2
  exact ⟨_, h1, h2⟩

theorem C9_witness :
    ∃ m : Nat, kU32.shiftAmt (-1) = some m ∧ m < kU32.bits :=
  C9_shift_amount_safe.1 kU32 (by decide) (-1)

/-- Unfolding of `Expr.eval` at the remaining node shapes. -/
theorem Expr.eval_bitnot (k : Kind) (e : Expr) :
    Expr.eval k (.bitnot e) =
      (Expr.eval k e).bind fun v =>
        .ok (k.ofPattern (k.pattern v ^^^ (2 ^ k.bits - 1))) := rfl

theorem Expr.eval_mul (k : Kind) (l r : Expr) :
    Expr.eval k (.mul l r) =
      (Expr.eval k l).bind fun x => (Expr.eval k r).bind fun y =>
        .ok (k.norm (x * y)) := rfl

theorem Expr.eval_div (k : Kind) (l r : Expr) :
    Expr.eval k (.div l r) =
      (Expr.eval k l).bind fun x => (Expr.eval k r).bind fun y =>
        if y = 0 then .panicked else .ok (k.norm (Int.tdiv x y)) := rfl

theorem Expr.eval_rem (k : Kind) (l r : Expr) :
    Expr.eval k (.rem l r) =
      (Expr.eval k l).bind fun x => (Expr.eval k r).bind fun y =>
        if y = 0 then .panicked else .ok (k.norm (Int.tmod x y)) := rfl

theorem Expr.eval_add (k : Kind) (l r : Expr) :
    Expr.eval k (.add l r) =
      (Expr.eval k l).bind fun x => (Expr.eval k r).bind fun y =>
        .ok (k.norm (x + y)) := rfl

theorem Expr.eval_sub (k : Kind) (l r : Expr) :
    Expr.eval k (.sub l r) =
      (Expr.eval k l).bind fun x => (Expr.eval k r).bind fun y =>
        .ok (k.norm (x - y)) := rfl

theorem Expr.eval_and (k : Kind) (l r : Expr) :
    Expr.eval k (.and l r) =
      (Expr.eval k l).bind fun x => (Expr.eval k r).bind fun y =>
        .ok (k.ofPattern (k.pattern x &&& k.pattern y)) := rfl

theorem Expr.eval_xor (k : Kind) (l r : Expr) :
    Expr.eval k (.xor l r) =
      (Expr.eval k l).bind fun x => (Expr.eval k r).bind fun y =>
        .ok (k.ofPattern (k.pattern x ^^^ k.pattern y)) := rfl

theorem Expr.eval_or (k : Kind) (l r : Expr) :
    Expr.eval k (.or l r) =
      (Expr.eval k l).bind fun x => (Expr.eval k r).bind fun y =>
        .ok (k.ofPattern (k.pattern x ||| k.pattern y)) := rfl

/-! ## Claim C6: Add/Sub/Mul wrap modulo the bit width -/

/-- C6: when both operands evaluate successfully, `Add`, `Sub` and `Mul`
yield the mathematical sum, difference and product reduced modulo
`2 ^ bits` into the kind's value range (the result is congruent to the
exact value modulo `2 ^ bits` and representable); and `255 + 1` at `u8`
evaluates to `Ok(0)`. -/
theorem C6_wrapping_arith :
    (∀ (k : Kind) (l r : Expr) (x y : Int), 0 < k.bits →
        Expr.eval k l = .ok x → Expr.eval k r = .ok y →
        Expr.eval k (.add l r) = .ok (k.norm (x + y)) ∧
        Expr.eval k (.sub l r) = .ok (k.norm (x - y)) ∧
        Expr.eval k (.mul l r) = .ok (k.norm (x * y)) ∧
        k.norm (x + y) % (2 : Int) ^ k.bits = (x + y) % (2 : Int) ^ k.bits ∧
        k.norm (x - y) % (2 : Int) ^ k.bits = (x - y) % (2 : Int) ^ k.bits ∧
        k.norm (x * y) % (2 : Int) ^ k.bits = (x * y) % (2 : Int) ^ k.bits ∧
        k.inRange (k.norm (x + y)) ∧ k.inRange (k.norm (x - y)) ∧
        k.inRange (k.norm (x * y))) ∧
    evalStr kU8 "255 + 1" = some (.ok 0) := by
  refine ⟨?_, by decide⟩
  intro k l r x y hb hl hr
  refine ⟨?_, ?_, ?_, k.norm_emod hb _, k.norm_emod hb _, k.norm_emod hb _,
    k.norm_inRange hb _, k.norm_inRange hb _, k.norm_inRange hb _⟩
  · rw [Expr.eval_add, hl, hr]; rfl
  · rw [Expr.eval_sub, hl, hr]; rfl
  · rw [Expr.eval_mul, hl, hr]; rfl

theorem C6_witness :
    Expr.eval kU8 (.add (.num 255) (.num 1)) = .ok (kU8.norm (255 + 1)) ∧
    Expr.eval kU8 (.sub (.num 255) (.num 1)) = .ok (kU8.norm (255 - 1)) ∧
    Expr.eval kU8 (.mul (.num 255) (.num 1)) = .ok (kU8.norm (255 * 1)) :=
  have h := C6_wrapping_arith.1 kU8 (.num 255) (.num 1) 255 1 (by decide)
    (by decide) (by decide)
  ⟨h.1, h.2.1, h.2.2.1⟩

/-! ## Claim C5: the only evaluation error is a literal out of range -/

/-- C5: for every selectable Kind and every expression with no division or
remainder by zero, evaluation either returns `Ok`, or returns the
literal-out-of-range error carrying a value that is not representable in
the Kind; no other evaluation error exists and wrapping arithmetic never
errors. -/
theorem C5_only_literal_errors (k : Kind) (hk : k ∈ kinds) (e : Expr)
    (h : divSafe k e = true) :
    (∃ v, Expr.eval k e = .ok v) ∨
    (∃ n, Expr.eval k e = .invalid n ∧ ¬ k.inRange n) := by
  have hbits : 0 < k.bits ∧ k.bits ≤ 2 ^ 32 := by
    fin_cases hk <;> exact ⟨by decide, by decide⟩
  induction e with
  | num n =>
      by_cases hn : k.inRange n
      · exact Or.inl ⟨n, by
          simp only [Expr.eval, Kind.fromI128]; rw [if_pos ⟨hn.1, hn.2⟩]⟩
      · refine Or.inr ⟨n, ?_, hn⟩
        simp only [Expr.eval, Kind.fromI128]
        rw [if_neg fun hc => hn ⟨hc.1, hc.2⟩]
  | neg e ih =>
      rcases Classical.em (∃ n, e = Expr.num n ∧ k.signed = true) with ⟨n, rfl, hs⟩ | hnot
      · simp only [Expr.eval, hs, if_true]
        by_cases hr : k.inRange (i128wrapNeg n)
        · exact Or.inl ⟨_, by
            simp only [Kind.fromI128]; rw [if_pos ⟨hr.1, hr.2⟩]⟩
        · refine Or.inr ⟨_, ?_, hr⟩
          simp only [Kind.fromI128]
          rw [if_neg fun hc => hr ⟨hc.1, hc.2⟩]
      · have hrw : Expr.eval k (.neg e) =
            (Expr.eval k e).bind fun w => .ok (k.norm (-w)) := by
          by_cases hs : k.signed = true
          · exact Expr.eval_neg_not_num k e fun m hm => hnot ⟨m, hm, hs⟩
          · exact Expr.eval_neg_unsigned k (by simpa using hs) e
        rcases ih h with ⟨v, hv⟩ | ⟨n, hn, hnr⟩
        · exact Or.inl ⟨_, by rw [hrw, hv]; rfl⟩
        · exact Or.inr ⟨n, by rw [hrw, hn]; rfl, hnr⟩
  | bitnot e ih =>
      rcases ih h with ⟨v, hv⟩ | ⟨n, hn, hnr⟩
      · exact Or.inl ⟨_, by rw [Expr.eval_bitnot, hv]; rfl⟩
      · exact Or.inr ⟨n, by rw [Expr.eval_bitnot, hn]; rfl, hnr⟩
  | mul l r ihl ihr =>
      simp only [divSafe, Bool.and_eq_true] at h
      rcases ihl h.1 with ⟨x, hx⟩ | ⟨n, hn, hnr⟩
      · rcases ihr h.2 with ⟨y, hy⟩ | ⟨n, hn, hnr⟩
        · exact Or.inl ⟨_, by rw [Expr.eval_mul, hx, hy]; rfl⟩
        · exact Or.inr ⟨n, by rw [Expr.eval_mul, hx, hn]; rfl, hnr⟩
      · exact Or.inr ⟨n, by rw [Expr.eval_mul, hn]; rfl, hnr⟩
  | div l r ihl ihr =>
      simp only [divSafe, Bool.and_eq_true, Bool.not_eq_true', beq_eq_false_iff_ne,
        ne_eq] at h
      obtain ⟨⟨h1, h2⟩, h3⟩ := h
      rcases ihl h1 with ⟨x, hx⟩ | ⟨n, hn, hnr⟩
      · rcases ihr h2 with ⟨y, hy⟩ | ⟨n, hn, hnr⟩
        · have hy0 : y ≠ 0 := by
            intro h0
            exact h3 (by rw [hy, h0])
          refine Or.inl ⟨k.norm (Int.tdiv x y), ?_⟩
          rw [Expr.eval_div, hx, hy]
          simp only [EvalOut.bind]
          rw [if_neg hy0]
        · exact Or.inr ⟨n, by rw [Expr.eval_div, hx, hn]; rfl, hnr⟩
      · exact Or.inr ⟨n, by rw [Expr.eval_div, hn]; rfl, hnr⟩
  | rem l r ihl ihr =>
      simp only [divSafe, Bool.and_eq_true, Bool.not_eq_true', beq_eq_false_iff_ne,
        ne_eq] at h
      obtain ⟨⟨h1, h2⟩, h3⟩ := h
      rcases ihl h1 with ⟨x, hx⟩ | ⟨n, hn, hnr⟩
      · rcases ihr h2 with ⟨y, hy⟩ | ⟨n, hn, hnr⟩
        · have hy0 : y ≠ 0 := by
            intro h0
            exact h3 (by rw [hy, h0])
          refine Or.inl ⟨k.norm (Int.tmod x y), ?_⟩
          rw [Expr.eval_rem, hx, hy]
          simp only [EvalOut.bind]
          rw [if_neg hy0]
        · exact Or.inr ⟨n, by rw [Expr.eval_rem, hx, hn]; rfl, hnr⟩
      · exact Or.inr ⟨n, by rw [Expr.eval_rem, hn]; rfl, hnr⟩
  | add l r ihl ihr =>
      simp only [divSafe, Bool.and_eq_true] at h
      rcases ihl h.1 with ⟨x, hx⟩ | ⟨n, hn, hnr⟩
      · rcases ihr h.2 with ⟨y, hy⟩ | ⟨n, hn, hnr⟩
        · exact Or.inl ⟨_, by rw [Expr.eval_add, hx, hy]; rfl⟩
        · exact Or.inr ⟨n, by rw [Expr.eval_add, hx, hn]; rfl, hnr⟩
      · exact Or.inr ⟨n, by rw [Expr.eval_add, hn]; rfl, hnr⟩
  | sub l r ihl ihr =>
      simp only [divSafe, Bool.and_eq_true] at h
      rcases ihl h.1 with ⟨x, hx⟩ | ⟨n, hn, hnr⟩
      · rcases ihr h.2 with ⟨y, hy⟩ | ⟨n, hn, hnr⟩
        · exact Or.inl ⟨_, by rw [Expr.eval_sub, hx, hy]; rfl⟩
        · exact Or.inr ⟨n, by rw [Expr.eval_sub, hx, hn]; rfl, hnr⟩
      · exact Or.inr ⟨n, by rw [Expr.eval_sub, hn]; rfl, hnr⟩
  | shr l r ihl ihr =>
      simp only [divSafe, Bool.and_eq_true] at h
      rcases ihl h.1 with ⟨x, hx⟩ | ⟨n, hn, hnr⟩
      · rcases ihr h.2 with ⟨y, hy⟩ | ⟨n, hn, hnr⟩
        · obtain ⟨ha, _⟩ := Kind.shiftAmt_spec k y hbits.1 hbits.2
          refine Or.inl ⟨Int.fdiv x ((2 : Int) ^ (k.pattern y &&& (k.bits - 1))), ?_⟩
          rw [Expr.eval_shr, hx, hy]
          simp only [EvalOut.bind]
          rw [ha]
        · exact Or.inr ⟨n, by rw [Expr.eval_shr, hx, hn]; rfl, hnr⟩
      · exact Or.inr ⟨n, by rw [Expr.eval_shr, hn]; rfl, hnr⟩
  | shl l r ihl ihr =>
      simp only [divSafe, Bool.and_eq_true] at h
      rcases ihl h.1 with ⟨x, hx⟩ | ⟨n, hn, hnr⟩
      · rcases ihr h.2 with ⟨y, hy⟩ | ⟨n, hn, hnr⟩
        · obtain ⟨ha, _⟩ := Kind.shiftAmt_spec k y hbits.1 hbits.2
          refine Or.inl ⟨k.norm (x * (2 : Int) ^ (k.pattern y &&& (k.bits - 1))), ?_⟩
          rw [Expr.eval_shl, hx, hy]
          simp only [EvalOut.bind]
          rw [ha]
        · exact Or.inr ⟨n, by rw [Expr.eval_shl, hx, hn]; rfl, hnr⟩
      · exact Or.inr ⟨n, by rw [Expr.eval_shl, hn]; rfl, hnr⟩
  | and l r ihl ihr =>
      simp only [divSafe, Bool.and_eq_true] at h
      rcases ihl h.1 with ⟨x, hx⟩ | ⟨n, hn, hnr⟩
      · rcases ihr h.2 with ⟨y, hy⟩ | ⟨n, hn, hnr⟩
        · exact Or.inl ⟨_, by rw [Expr.eval_and, hx, hy]; rfl⟩
        · exact Or.inr ⟨n, by rw [Expr.eval_and, hx, hn]; rfl, hnr⟩
      · exact Or.inr ⟨n, by rw [Expr.eval_and, hn]; rfl, hnr⟩
  | xor l r ihl ihr =>
      simp only [divSafe, Bool.and_eq_true] at h
      rcases ihl h.1 with ⟨x, hx⟩ | ⟨n, hn, hnr⟩
      · rcases ihr h.2 with ⟨y, hy⟩ | ⟨n, hn, hnr⟩
        · exact Or.inl ⟨_, by rw [Expr.eval_xor, hx, hy]; rfl⟩
        · exact Or.inr ⟨n, by rw [Expr.eval_xor, hx, hn]; rfl, hnr⟩
      · exact Or.inr ⟨n, by rw [Expr.eval_xor, hn]; rfl, hnr⟩
  | or l r ihl ihr =>
      simp only [divSafe, Bool.and_eq_true] at h
      rcases ihl h.1 with ⟨x, hx⟩ | ⟨n, hn, hnr⟩
      · rcases ihr h.2 with ⟨y, hy⟩ | ⟨n, hn, hnr⟩
        · exact Or.inl ⟨_, by rw [Expr.eval_or, hx, hy]; rfl⟩
        · exact Or.inr ⟨n, by rw [Expr.eval_or, hx, hn]; rfl, hnr⟩
      · exact Or.inr ⟨n, by rw [Expr.eval_or, hn]; rfl, hnr⟩

theorem C5_witness :
    (∃ v, Expr.eval kU32 (.div (.num 10) (.num 3)) = .ok v) ∨
    (∃ n, Expr.eval kU32 (.div (.num 10) (.num 3)) = .invalid n ∧
      ¬ kU32.inRange n) :=
  C5_only_literal_errors kU32 (by decide) (.div (.num 10) (.num 3)) (by decide)

/-! ## Claim C8: formatter round-trip -/

/-- Reassembling the chunk loop's output most-significant-first by shifting
recovers the value, given enough fuel for the loop to finish. -/
theorem chunkGo_reconstruct (c : Nat) (hc : 0 < c) :
    ∀ (f u : Nat), u < 2 ^ (c * f) →
      List.foldl (fun a d => a * 2 ^ c + d) 0 (chunkGo c f u).reverse = u := by
  intro f
  induction f with
  | zero =>
      intro u hu
      rw [Nat.mul_zero, pow_zero] at hu
      interval_cases u
      rfl
  | succ f ih =>
      intro u hu
      by_cases h0 : u = 0
      · subst h0
        simp [chunkGo]
      · have hdiv : u >>> c = u / 2 ^ c := Nat.shiftRight_eq_div_pow u c
        have hmod : u &&& (2 ^ c - 1) = u % 2 ^ c :=
          Nat.and_pow_two_sub_one_eq_mod u c
        have hrec : u / 2 ^ c < 2 ^ (c * f) := by
          rw [Nat.div_lt_iff_lt_mul (by positivity)]
          calc u < 2 ^ (c * (f + 1)) := hu
          _ = 2 ^ (c * f) * 2 ^ c := by rw [Nat.mul_succ, pow_add]
        have := ih (u / 2 ^ c) hrec
        simp only [chunkGo, h0, if_false, List.reverse_cons, List.foldl_append,
          hdiv, hmod, this, List.foldl_cons, List.foldl_nil]
        rw [Nat.mul_comm]
        exact Nat.div_add_mod u (2 ^ c)

/-- Leading zero chunks do not change the reassembled value. -/
theorem foldl_replicate_zero (c : Nat) (m : Nat) (l : List Nat) :
    List.foldl (fun a d => a * 2 ^ c + d) 0 (List.replicate m 0 ++ l) =
      List.foldl (fun a d => a * 2 ^ c + d) 0 l := by
  induction m with
  | zero => rfl
  | succ m ih => simpa [List.replicate_succ] using ih

/-- Decoding the alternate-radix line (blanks contribute nothing) agrees
with decoding the same chunks all printed, as long as blanks can only
appear while the accumulated value is zero. -/
theorem altMark_decode (c : Nat) :
    ∀ (l : List Nat) (seen : Bool) (a : Nat), (seen = false → a = 0) →
      List.foldl (fun a od => match od with
        | some d => a * 2 ^ c + d
        | none => a) a (altMark seen l) =
      List.foldl (fun a d => a * 2 ^ c + d) a l := by
  intro l
  induction l with
  | nil => intro seen a _; rfl
  | cons d rest ih =>
      intro seen a ha
      simp only [altMark, List.foldl_cons]
      by_cases hp : ((seen || !(d == 0)) || rest.isEmpty) = true
      · rw [if_pos hp]
        exact ih (seen || !(d == 0)) (a * 2 ^ c + d) (by
          intro hs
          simp only [Bool.or_eq_false_iff, Bool.not_eq_false'] at hs
          obtain ⟨hs1, hs2⟩ := hs
          rw [ha hs1, beq_iff_eq.mp hs2]
          omega)
      · rw [if_neg hp]
        simp only [Bool.or_eq_true, not_or, Bool.not_eq_true,
          Bool.not_eq_false'] at hp
        obtain ⟨⟨hs1, hd⟩, _⟩ := hp
        have hd0 : d = 0 := beq_iff_eq.mp hd
        have ha0 : a = 0 := ha hs1
        subst ha0
        subst hd0
        simpa using ih seen 0 (fun _ => rfl)

/-- C8: for every kind, every value and both radixes, reassembling the
chunks of the alternate-radix line (blanks contributing nothing) and of
the binary line by shifting each chunk into place reconstructs exactly the
value's same-width unsigned bit pattern, which is never sign-extended. -/
theorem C8_formatter_roundtrip (k : Kind) (b : Base) (v : Int) :
    decodeAlt b.bits (altChunks k b v) = k.pattern v ∧
    decodeChunks b.bits (binChunks k b v) = k.pattern v := by
  have hc : 0 < b.bits := by cases b <;> decide
  have hu : k.pattern v < 2 ^ (b.bits * k.bits) :=
    lt_of_lt_of_le (k.pattern_lt v)
      (Nat.pow_le_pow_right (by omega) (Nat.le_mul_of_pos_left _ hc))
  have hbin : decodeChunks b.bits (binChunks k b v) = k.pattern v := by
    unfold decodeChunks binChunks digitsLE
    rw [List.reverse_append, List.reverse_replicate, foldl_replicate_zero]
    exact chunkGo_reconstruct b.bits hc k.bits (k.pattern v) hu
  refine ⟨?_, hbin⟩
  unfold decodeAlt altChunks
  rw [altMark_decode b.bits _ false 0 (fun _ => rfl)]
  exact hbin

/-! ## Claim C7: literal range checking is deferred to evaluation -/

theorem digitVal_digitChar {d : Nat} (hd : d < 10) :
    digitVal 10 (digitChar d) = some d := by
  interval_cases d <;> decide

theorem takeDigits_append_of_all (b : Nat) (cs1 cs2 : List Char)
    (h : (takeDigits b cs1).2 = []) :
    takeDigits b (cs1 ++ cs2) =
      ((takeDigits b cs1).1 ++ (takeDigits b cs2).1, (takeDigits b cs2).2) := by
  induction cs1 with
  | nil => simp [takeDigits]
  | cons c t ih =>
      cases hv : digitVal b c with
      | none =>
          exfalso
          simp only [takeDigits, hv] at h
          exact absurd h (by simp)
      | some d =>
          simp only [takeDigits, hv] at h ⊢
          rw [show takeDigits b (t.append cs2) = takeDigits b (t ++ cs2) from rfl,
            ih h]
          simp

theorem digitsToNat_append_singleton (b : Nat) (ds : List Nat) (d : Nat) :
    digitsToNat b (ds ++ [d]) = digitsToNat b ds * b + d := by
  unfold digitsToNat
  rw [List.foldl_append]
  rfl

/-- The decimal rendering lexes back to its digit values, exhausts the
input, is nonempty, and consists of decimal digit characters. -/
theorem decRenderGo_spec (f : Nat) : ∀ n : Nat, n < f →
    (takeDigits 10 (decRenderGo f n)).2 = [] ∧
    digitsToNat 10 (takeDigits 10 (decRenderGo f n)).1 = n ∧
    decRenderGo f n ≠ [] ∧
    ∀ c ∈ decRenderGo f n, (digitVal 10 c).isSome = true := by
  induction f with
  | zero => intro n hn; omega
  | succ f ih =>
      intro n hn
      by_cases h10 : n < 10
      · simp only [decRenderGo, h10, if_true]
        have hv := digitVal_digitChar h10
        refine ⟨by simp [takeDigits, hv], by simp [takeDigits, hv, digitsToNat],
          by simp, ?_⟩
        intro c hc
        simp only [List.mem_singleton] at hc
        subst hc
        simp [hv]
      · have hrec : n / 10 < f := by omega
        obtain ⟨h1, h2, h3, h4⟩ := ih (n / 10) hrec
        simp only [decRenderGo, h10, if_false]
        have hv := digitVal_digitChar (d := n % 10) (by omega)
        have htd := takeDigits_append_of_all 10 _ [digitChar (n % 10)] h1
        refine ⟨?_, ?_, by simp, ?_⟩
        · rw [htd]
          simp [takeDigits, hv]
        · rw [htd]
          simp only [takeDigits, hv]
          rw [digitsToNat_append_singleton, h2]
          omega
        · intro c hc
          rcases List.mem_append.mp hc with hc | hc
          · exact h4 c hc
          · simp only [List.mem_singleton] at hc
            subst hc
            simp [hv]

/-- One lexer step on a leading decimal digit. -/
theorem lexGo_digit_step (f : Nat) (c : Char) (cs : List Char) (d : Nat)
    (hd : digitVal 10 c = some d)
    (hnx : ¬(c = '0' ∧ (cs.head? = some 'x' ∨ cs.head? = some 'X')))
    (hno : ¬(c = '0' ∧ (cs.head? = some 'o' ∨ cs.head? = some 'O'))) :
    lexGo (f + 1) (c :: cs) =
      (if (digitsToNat 10 (d :: (takeDigits 10 cs).1) : Int) ≤ i128Max then
        (lexGo f (takeDigits 10 cs).2).map
          (fun ts => Tok.num (digitsToNat 10 (d :: (takeDigits 10 cs).1)) :: ts)
      else none) := by
  simp only [lexGo, hd]
  rw [if_neg hnx, if_neg hno]

theorem lexGo_nil (f : Nat) : lexGo (f + 1) [] = some [] := rfl

/-- Any decimal literal that fits the 128-bit literal container parses
successfully, to exactly that literal. -/
theorem parse_decString (n : Nat) (hle : (n : Int) ≤ i128Max) :
    parse (decString n) = some (.num n) := by
  obtain ⟨h1, h2, h3, h4⟩ := decRenderGo_spec (n + 1) n (Nat.lt_succ_self n)
  show (lex (decRenderGo (n + 1) n)).bind parseToks = some (.num n)
  cases hcs : decRenderGo (n + 1) n with
  | nil => exact absurd hcs h3
  | cons c cs =>
      rw [hcs] at h1 h2 h4
      have hc : (digitVal 10 c).isSome = true := h4 c (by simp)
      obtain ⟨d, hd⟩ := Option.isSome_iff_exists.mp hc
      have hhead : ∀ ch, cs.head? = some ch → (digitVal 10 ch).isSome = true := by
        intro ch hch
        cases cs with
        | nil => simp at hch
        | cons c2 t =>
            simp only [List.head?, Option.some.injEq] at hch
            subst hch
            exact h4 c2 (by simp)
      have hnx : ¬(c = '0' ∧ (cs.head? = some 'x' ∨ cs.head? = some 'X')) := by
        rintro ⟨-, hx | hx⟩
        · exact absurd (hhead _ hx) (by decide)
        · exact absurd (hhead _ hx) (by decide)
      have hno : ¬(c = '0' ∧ (cs.head? = some 'o' ∨ cs.head? = some 'O')) := by
        rintro ⟨-, hx | hx⟩
        · exact absurd (hhead _ hx) (by decide)
        · exact absurd (hhead _ hx) (by decide)
      have htd : takeDigits 10 (c :: cs) =
          (d :: (takeDigits 10 cs).1, (takeDigits 10 cs).2) := by
        simp [takeDigits, hd]
      rw [htd] at h1 h2
      simp only at h1 h2
      unfold lex
      simp only [List.length_cons]
      rw [lexGo_digit_step (cs.length + 1) c cs d hd hnx hno]
      rw [h1]
      rw [if_pos (by rw [h2]; exact hle)]
      rw [lexGo_nil cs.length]
      simp only [Option.map, Option.bind]
      rw [h2]
      rfl

/-- C7: the parser never rejects a literal for being too large for the
evaluation width — every decimal literal that fits the 128-bit literal
container parses successfully — and the range check happens only at
evaluation: `4294967296` parses, fails at `u32` with the literal-range
error carrying the literal, and evaluates to `Ok` at `u64`. -/
theorem C7_literal_range_deferred :
    (∀ n : Nat, (n : Int) ≤ i128Max → parse (decString n) = some (.num n)) ∧
    parse "4294967296" = some (.num 4294967296) ∧
    evalStr kU32 "4294967296" = some (.invalid 4294967296) ∧
    evalStr kU64 "4294967296" = some (.ok 4294967296) := by
  exact ⟨parse_decString, by decide, by decide, by decide⟩

theorem C7_witness : parse (decString 4294967296) = some (.num 4294967296) :=
  C7_literal_range_deferred.1 4294967296 (by decide)

/-! ## Claim C10: the fixed u32 evaluator refines the generic one -/

theorem kU32_norm_natCast (m : Nat) :
    kU32.norm (m : Int) = ((m % 2 ^ 32 : Nat) : Int) := by
  show (m : Int) % (2 : Int) ^ 32 = ((m % 2 ^ 32 : Nat) : Int)
  push_cast
  rfl

theorem kU32_ofPattern_small (u : Nat) (h : u < 2 ^ 32) :
    kU32.ofPattern u = (u : Int) := by
  show kU32.norm (u : Int) = (u : Int)
  rw [kU32_norm_natCast, Nat.mod_eq_of_lt h]

theorem kU32_num_ok (n : Nat) (h : n < 2 ^ 32) :
    Expr.eval kU32 (.num (n : Int)) = .ok (n : Int) := by
  simp only [Expr.eval, Kind.fromI128]
  rw [if_pos]
  constructor
  · show (0 : Int) ≤ (n : Int)
    positivity
  · show (n : Int) ≤ (2 : Int) ^ 32 - 1
    have hc : ((2 ^ 32 : Nat) : Int) = (2 : Int) ^ 32 := by push_cast
    omega

theorem kU32_shiftAmt (y : Nat) (h : y < 2 ^ 32) :
    kU32.shiftAmt (y : Int) = some (y % 32) := by
  unfold Kind.shiftAmt
  rw [Kind.pattern_ofNat kU32 y h]
  rw [show kU32.bits - 1 = 2 ^ 5 - 1 from rfl, Nat.and_pow_two_sub_one_eq_mod]
  unfold toU32
  rw [if_pos]
  have hm : y % 2 ^ 5 < 2 ^ 5 := Nat.mod_lt y (by norm_num)
  omega

theorem int_fdiv_natCast (x m : Nat) :
    Int.fdiv (x : Int) ((2 : Int) ^ m) = ((x / 2 ^ m : Nat) : Int) := by
  rw [Int.fdiv_eq_ediv _ (by positivity)]
  rw [show ((2 : Int) ^ m) = ((2 ^ m : Nat) : Int) by push_cast; rfl]
  exact (Int.ofNat_ediv x _).symm

/-- On structurally identical trees whose literals fit `u32`, a successful
run of the ast.rs evaluator is reproduced exactly by the generic evaluator
at `u32`, and its value is a `u32` value. -/
theorem u32EvalAgrees (a : AExpr) : a.litsFit = true → ∀ v : Nat,
    AExpr.eval a = some v →
    Expr.eval kU32 (AExpr.toExpr a) = .ok (v : Int) ∧ v < 2 ^ 32 := by
  induction a with
  | num n =>
      intro hfit v hv
      simp only [AExpr.litsFit, decide_eq_true_eq] at hfit
      simp only [AExpr.eval, Option.some.injEq] at hv
      subst hv
      exact ⟨kU32_num_ok _ hfit, hfit⟩
  | neg e ih =>
      intro hfit v hv
      cases he : AExpr.eval e with
      | none => rw [AExpr.eval, he, Option.map_none'] at hv; exact Option.noConfusion hv
      | some w =>
          rw [AExpr.eval, he, Option.map_some', Option.some.injEq] at hv
          obtain ⟨hwe, hwlt⟩ := ih hfit w he
          constructor
          · simp only [AExpr.toExpr]
            rw [Expr.eval_neg_unsigned kU32 rfl, hwe]
            simp only [EvalOut.bind, EvalOut.ok.injEq]
            rw [← hv]
            have hM : (2 : Int) ^ 32 = ((2 ^ 32 : Nat) : Int) := by push_cast
            show (-(w : Int)) % (2 : Int) ^ 32 = (((2 ^ 32 - w) % 2 ^ 32 : Nat) : Int)
            omega
          · rw [← hv]
            exact Nat.mod_lt _ (by norm_num)
  | bitnot e ih =>
      intro hfit v hv
      cases he : AExpr.eval e with
      | none => rw [AExpr.eval, he, Option.map_none'] at hv; exact Option.noConfusion hv
      | some w =>
          rw [AExpr.eval, he, Option.map_some', Option.some.injEq] at hv
          obtain ⟨hwe, hwlt⟩ := ih hfit w he
          have hxlt : w ^^^ (2 ^ 32 - 1) < 2 ^ 32 :=
            Nat.xor_lt_two_pow hwlt (by norm_num)
          constructor
          · simp only [AExpr.toExpr]
            rw [Expr.eval_bitnot, hwe]
            simp only [EvalOut.bind, EvalOut.ok.injEq]
            rw [Kind.pattern_ofNat kU32 w hwlt]
            rw [show (2 : Nat) ^ kU32.bits - 1 = 2 ^ 32 - 1 from rfl]
            rw [kU32_ofPattern_small _ hxlt, hv]
          · rw [← hv]
            exact hxlt
  | mul l r ihl ihr =>
      intro hfit v hv
      simp only [AExpr.litsFit, Bool.and_eq_true] at hfit
      cases hl : AExpr.eval l with
      | none => rw [AExpr.eval, hl, Option.none_bind] at hv; exact Option.noConfusion hv
      | some x =>
      cases hr : AExpr.eval r with
      | none =>
          rw [AExpr.eval, hl, hr, Option.some_bind, Option.map_none'] at hv
          exact Option.noConfusion hv
      | some y =>
          rw [AExpr.eval, hl, hr, Option.some_bind, Option.map_some',
            Option.some.injEq] at hv
          obtain ⟨hxe, hxlt⟩ := ihl hfit.1 x hl
          obtain ⟨hye, hylt⟩ := ihr hfit.2 y hr
          constructor
          · simp only [AExpr.toExpr]
            rw [Expr.eval_mul, hxe, hye]
            simp only [EvalOut.bind, EvalOut.ok.injEq]
            rw [show ((x : Int) * y) = ((x * y : Nat) : Int) by push_cast; ring]
            rw [kU32_norm_natCast, hv]
          · rw [← hv]
            exact Nat.mod_lt _ (by norm_num)
  | div l r ihl ihr =>
      intro hfit v hv
      simp only [AExpr.litsFit, Bool.and_eq_true] at hfit
      cases hl : AExpr.eval l with
      | none => rw [AExpr.eval, hl, Option.none_bind] at hv; exact Option.noConfusion hv
      | some x =>
      cases hr : AExpr.eval r with
      | none =>
          rw [AExpr.eval, hl, hr, Option.some_bind, Option.none_bind] at hv
          exact Option.noConfusion hv
      | some y =>
          rw [AExpr.eval, hl, hr, Option.some_bind, Option.some_bind] at hv
          by_cases hy0 : y = 0
          · rw [if_pos hy0] at hv; exact Option.noConfusion hv
          · rw [if_neg hy0, Option.some.injEq] at hv
            obtain ⟨hxe, hxlt⟩ := ihl hfit.1 x hl
            obtain ⟨hye, hylt⟩ := ihr hfit.2 y hr
            constructor
            · simp only [AExpr.toExpr]
              rw [Expr.eval_div, hxe, hye]
              simp only [EvalOut.bind]
              rw [if_neg (by exact_mod_cast hy0)]
              simp only [EvalOut.ok.injEq]
              rw [show Int.tdiv (x : Int) (y : Int) = ((x / y : Nat) : Int) by
                simp [Int.tdiv]]
              rw [kU32_norm_natCast]
              rw [Nat.mod_eq_of_lt (lt_of_le_of_lt (Nat.div_le_self x y) hxlt), hv]
            · rw [← hv]
              exact lt_of_le_of_lt (Nat.div_le_self x y) hxlt
  | rem l r ihl ihr =>
      intro hfit v hv
      simp only [AExpr.litsFit, Bool.and_eq_true] at hfit
      cases hl : AExpr.eval l with
      | none => rw [AExpr.eval, hl, Option.none_bind] at hv; exact Option.noConfusion hv
      | some x =>
      cases hr : AExpr.eval r with
      | none =>
          rw [AExpr.eval, hl, hr, Option.some_bind, Option.none_bind] at hv
          exact Option.noConfusion hv
      | some y =>
          rw [AExpr.eval, hl, hr, Option.some_bind, Option.some_bind] at hv
          by_cases hy0 : y = 0
          · rw [if_pos hy0] at hv; exact Option.noConfusion hv
          · rw [if_neg hy0, Option.some.injEq] at hv
            obtain ⟨hxe, hxlt⟩ := ihl hfit.1 x hl
            obtain ⟨hye, hylt⟩ := ihr hfit.2 y hr
            constructor
            · simp only [AExpr.toExpr]
              rw [Expr.eval_rem, hxe, hye]
              simp only [EvalOut.bind]
              rw [if_neg (by exact_mod_cast hy0)]
              simp only [EvalOut.ok.injEq]
              rw [show Int.tmod (x : Int) (y : Int) = ((x % y : Nat) : Int) by
                simp [Int.tmod]]
              rw [kU32_norm_natCast]
              rw [Nat.mod_eq_of_lt (lt_of_le_of_lt (Nat.mod_le x y) hxlt), hv]
            · rw [← hv]
              exact lt_of_le_of_lt (Nat.mod_le x y) hxlt
  | add l r ihl ihr =>
      intro hfit v hv
      simp only [AExpr.litsFit, Bool.and_eq_true] at hfit
      cases hl : AExpr.eval l with
      | none => rw [AExpr.eval, hl, Option.none_bind] at hv; exact Option.noConfusion hv
      | some x =>
      cases hr : AExpr.eval r with
      | none =>
          rw [AExpr.eval, hl, hr, Option.some_bind, Option.map_none'] at hv
          exact Option.noConfusion hv
      | some y =>
          rw [AExpr.eval, hl, hr, Option.some_bind, Option.map_some',
            Option.some.injEq] at hv
          obtain ⟨hxe, hxlt⟩ := ihl hfit.1 x hl
          obtain ⟨hye, hylt⟩ := ihr hfit.2 y hr
          constructor
          · simp only [AExpr.toExpr]
            rw [Expr.eval_add, hxe, hye]
            simp only [EvalOut.bind, EvalOut.ok.injEq]
            rw [show ((x : Int) + y) = ((x + y : Nat) : Int) by push_cast; ring]
            rw [kU32_norm_natCast, hv]
          · rw [← hv]
            exact Nat.mod_lt _ (by norm_num)
  | sub l r ihl ihr =>
      intro hfit v hv
      simp only [AExpr.litsFit, Bool.and_eq_true] at hfit
      cases hl : AExpr.eval l with
      | none => rw [AExpr.eval, hl, Option.none_bind] at hv; exact Option.noConfusion hv
      | some x =>
      cases hr : AExpr.eval r with
      | none =>
          rw [AExpr.eval, hl, hr, Option.some_bind, Option.map_none'] at hv
          exact Option.noConfusion hv
      | some y =>
          rw [AExpr.eval, hl, hr, Option.some_bind, Option.map_some',
            Option.some.injEq] at hv
          obtain ⟨hxe, hxlt⟩ := ihl hfit.1 x hl
          obtain ⟨hye, hylt⟩ := ihr hfit.2 y hr
          constructor
          · simp only [AExpr.toExpr]
            rw [Expr.eval_sub, hxe, hye]
            simp only [EvalOut.bind, EvalOut.ok.injEq]
            rw [← hv]
            have hM : (2 : Int) ^ 32 = ((2 ^ 32 : Nat) : Int) := by push_cast
            show ((x : Int) - y) % (2 : Int) ^ 32 =
              (((2 ^ 32 + x - y) % 2 ^ 32 : Nat) : Int)
            omega
          · rw [← hv]
            exact Nat.mod_lt _ (by norm_num)
  | shr l r ihl ihr =>
      intro hfit v hv
      simp only [AExpr.litsFit, Bool.and_eq_true] at hfit
      cases hl : AExpr.eval l with
      | none => rw [AExpr.eval, hl, Option.none_bind] at hv; exact Option.noConfusion hv
      | some x =>
      cases hr : AExpr.eval r with
      | none =>
          rw [AExpr.eval, hl, hr, Option.some_bind, Option.map_none'] at hv
          exact Option.noConfusion hv
      | some y =>
          rw [AExpr.eval, hl, hr, Option.some_bind, Option.map_some',
            Option.some.injEq] at hv
          obtain ⟨hxe, hxlt⟩ := ihl hfit.1 x hl
          obtain ⟨hye, hylt⟩ := ihr hfit.2 y hr
          constructor
          · simp only [AExpr.toExpr]
            rw [Expr.eval_shr, hxe, hye]
            simp only [EvalOut.bind]
            rw [kU32_shiftAmt y hylt]
            simp only [EvalOut.ok.injEq]
            rw [int_fdiv_natCast, ← hv, Nat.shiftRight_eq_div_pow]
          · rw [← hv, Nat.shiftRight_eq_div_pow]
            exact lt_of_le_of_lt (Nat.div_le_self x _) hxlt
  | shl l r ihl ihr =>
      intro hfit v hv
      simp only [AExpr.litsFit, Bool.and_eq_true] at hfit
      cases hl : AExpr.eval l with
      | none => rw [AExpr.eval, hl, Option.none_bind] at hv; exact Option.noConfusion hv
      | some x =>
      cases hr : AExpr.eval r with
      | none =>
          rw [AExpr.eval, hl, hr, Option.some_bind, Option.map_none'] at hv
          exact Option.noConfusion hv
      | some y =>
          rw [AExpr.eval, hl, hr, Option.some_bind, Option.map_some',
            Option.some.injEq] at hv
          obtain ⟨hxe, hxlt⟩ := ihl hfit.1 x hl
          obtain ⟨hye, hylt⟩ := ihr hfit.2 y hr
          constructor
          · simp only [AExpr.toExpr]
            rw [Expr.eval_shl, hxe, hye]
            simp only [EvalOut.bind]
            rw [kU32_shiftAmt y hylt]
            simp only [EvalOut.ok.injEq]
            rw [show ((x : Int) * (2 : Int) ^ (y % 32)) =
              ((x * 2 ^ (y % 32) : Nat) : Int) by push_cast; ring]
            rw [kU32_norm_natCast, ← hv, Nat.shiftLeft_eq]
          · rw [← hv]
            exact Nat.mod_lt _ (by norm_num)
  | and l r ihl ihr =>
      intro hfit v hv
      simp only [AExpr.litsFit, Bool.and_eq_true] at hfit
      cases hl : AExpr.eval l with
      | none => rw [AExpr.eval, hl, Option.none_bind] at hv; exact Option.noConfusion hv
      | some x =>
      cases hr : AExpr.eval r with
      | none =>
          rw [AExpr.eval, hl, hr, Option.some_bind, Option.map_none'] at hv
          exact Option.noConfusion hv
      | some y =>
          rw [AExpr.eval, hl, hr, Option.some_bind, Option.map_some',
            Option.some.injEq] at hv
          obtain ⟨hxe, hxlt⟩ := ihl hfit.1 x hl
          obtain ⟨hye, hylt⟩ := ihr hfit.2 y hr
          have hlt : x &&& y < 2 ^ 32 := lt_of_le_of_lt Nat.and_le_left hxlt
          constructor
          · simp only [AExpr.toExpr]
            rw [Expr.eval_and, hxe, hye]
            simp only [EvalOut.bind, EvalOut.ok.injEq]
            rw [Kind.pattern_ofNat kU32 x hxlt, Kind.pattern_ofNat kU32 y hylt]
            rw [kU32_ofPattern_small _ hlt, hv]
          · rw [← hv]
            exact hlt
  | xor l r ihl ihr =>
      intro hfit v hv
      simp only [AExpr.litsFit, Bool.and_eq_true] at hfit
      cases hl : AExpr.eval l with
      | none => rw [AExpr.eval, hl, Option.none_bind] at hv; exact Option.noConfusion hv
      | some x =>
      cases hr : AExpr.eval r with
      | none =>
          rw [AExpr.eval, hl, hr, Option.some_bind, Option.map_none'] at hv
          exact Option.noConfusion hv
      | some y =>
          rw [AExpr.eval, hl, hr, Option.some_bind, Option.map_some',
            Option.some.injEq] at hv
          obtain ⟨hxe, hxlt⟩ := ihl hfit.1 x hl
          obtain ⟨hye, hylt⟩ := ihr hfit.2 y hr
          have hlt : x ^^^ y < 2 ^ 32 := Nat.xor_lt_two_pow hxlt hylt
          constructor
          · simp only [AExpr.toExpr]
            rw [Expr.eval_xor, hxe, hye]
            simp only [EvalOut.bind, EvalOut.ok.injEq]
            rw [Kind.pattern_ofNat kU32 x hxlt, Kind.pattern_ofNat kU32 y hylt]
            rw [kU32_ofPattern_small _ hlt, hv]
          · rw [← hv]
            exact hlt
  | or l r ihl ihr =>
      intro hfit v hv
      simp only [AExpr.litsFit, Bool.and_eq_true] at hfit
      cases hl : AExpr.eval l with
      | none => rw [AExpr.eval, hl, Option.none_bind] at hv; exact Option.noConfusion hv
      | some x =>
      cases hr : AExpr.eval r with
      | none =>
          rw [AExpr.eval, hl, hr, Option.some_bind, Option.map_none'] at hv
          exact Option.noConfusion hv
      | some y =>
          rw [AExpr.eval, hl, hr, Option.some_bind, Option.map_some',
            Option.some.injEq] at hv
          obtain ⟨hxe, hxlt⟩ := ihl hfit.1 x hl
          obtain ⟨hye, hylt⟩ := ihr hfit.2 y hr
          have hlt : x ||| y < 2 ^ 32 := Nat.or_lt_two_pow hxlt hylt
          constructor
          · simp only [AExpr.toExpr]
            rw [Expr.eval_or, hxe, hye]
            simp only [EvalOut.bind, EvalOut.ok.injEq]
            rw [Kind.pattern_ofNat kU32 x hxlt, Kind.pattern_ofNat kU32 y hylt]
            rw [kU32_ofPattern_small _ hlt, hv]
          · rw [← hv]
            exact hlt

/-- C10: on every pair of structurally identical trees whose literals all
fit `u32` and whose run hits no division or remainder by zero (so the
ast.rs evaluator returns a value), the generic evaluator of expr.rs at
`u32` returns `Ok` of the same value. -/
theorem C10_u32_refinement (a : AExpr) (v : Nat) (hfit : a.litsFit = true)
    (hv : AExpr.eval a = some v) :
    Expr.eval kU32 (AExpr.toExpr a) = .ok (v : Int) :=
  (u32EvalAgrees a hfit v hv).1

theorem C10_witness :
    Expr.eval kU32 (AExpr.toExpr (.div (.add (.num 10) (.num 2)) (.num 4))) =
      .ok ((3 : Nat) : Int) :=
  C10_u32_refinement (.div (.add (.num 10) (.num 2)) (.num 4)) 3 (by decide)
    (by decide)
